import Mathlib

/-!
# Verification of the ai-batch-translate core

Shallow embedding of the crash-resumable batch translation pipeline
(`ai_translator/processing.py`, `ai_translator/state_manager.py`,
`ai_translator/tuner.py`) together with proofs of the specified
properties of the File Processor, Checkpoint Store and Worker Tuner.

Modelling conventions:
* A Python dict item (language-code → text) is an association list
  `List (String × String)` in insertion order (Python dicts preserve
  insertion order, keys are unique).
* The external translation API call is an oracle parameter: a value of
  type `Except Unit (List (String × String))`; `.error ()` models the
  call raising an exception, `.ok []` models a falsy result (`None` or
  an empty dict), `.ok ts` a returned translation mapping.
* Machine floats of the tuner are modelled as rationals `ℚ`; the timed
  measurements of `_run_chunk` are an oracle `ℕ → ℚ` consumed one value
  per call.
-/

namespace AiTranslator

/-- One record: a Python dict mapped to an insertion-ordered association
list of key/value strings. -/
abbrev Item := List (String × String)

/-- `FileProcessor._is_language_key`: a key is a language key iff it has
exactly two characters. -/
def isLanguageKey (key : String) : Bool :=
  key.length = 2

/-- Language priority for finding a source text
(`SOURCE_LANG_PRIORITY = ["de", "en", "fr"]` in `processing.py`). -/
def SOURCE_LANG_PRIORITY : List String := ["de", "en", "fr"]

/-- Python truthiness of a string value: non-empty. -/
def truthyStr (s : String) : Bool := !(s = "")

/-- Dictionary lookup, `item.get(k)` — first binding of `k` (keys are
unique in a Python dict). -/
def lookup (item : Item) (k : String) : Option String :=
  (item.find? (fun kv => kv.1 = k)).map (·.2)

/-- `FileProcessor._get_source_language`: first non-empty value among the
priority languages, else the first non-empty language field in insertion
order, else none. -/
def getSourceLanguage (item : Item) : Option (String × String) :=
  match SOURCE_LANG_PRIORITY.find? (fun l => (lookup item l).getD "" ≠ "" && isLanguageKey l) with
  | some l => some (l, (lookup item l).getD "")
  | none => item.find? (fun kv => isLanguageKey kv.1 && truthyStr kv.2)

/-- Python `item[k] = v` on an insertion-ordered dict: replaces the value
in place when the key exists, otherwise appends the binding. -/
def setKey (item : Item) (k v : String) : Item :=
  if item.any (fun kv => kv.1 = k) then
    item.map (fun kv => if kv.1 = k then (k, v) else kv)
  else
    item ++ [(k, v)]

/-- The mutation loop of `FileProcessor._translate_item`:
`for lang_code, text in translations.items(): if lang_code in missing:
item[lang_code] = text`. -/
def applyTranslations (item : Item) (missing : List String) (ts : List (String × String)) : Item :=
  ts.foldl (fun it kv => if missing.contains kv.1 then setKey it kv.1 kv.2 else it) item

/-- The locals `lang_values` / `missing` of `_translate_item`: keys of
the language fields whose value is empty. -/
def missingOf (item : Item) : List String :=
  ((item.filter (fun kv => isLanguageKey kv.1)).filter (fun kv => !truthyStr kv.2)).map Prod.fst

/-- `FileProcessor._translate_item`, with the external API call passed as
an oracle. `.error` propagates the exception to the caller; an `.ok []`
API result models the falsy case (`if translations:` fails), in which the
item is returned unchanged — applying an empty translation mapping is the
same fold. -/
def translateItemE (item : Item) (api : Except Unit (List (String × String))) :
    Except Unit Item :=
  if (missingOf item).isEmpty then .ok item
  else
    match getSourceLanguage item with
    | none => .ok item
    | some _ =>
      match api with
      | .error e => .error e
      | .ok ts => .ok (applyTranslations item (missingOf item) ts)

/-- `_translate_item` when the API call does not raise. -/
def translateItem (item : Item) (ts : List (String × String)) : Item :=
  match translateItemE item (.ok ts) with
  | .ok it => it
  | .error _ => item

/-- `available_langs` count of `_process_item_wrapper`: populated
(non-empty) language fields. -/
def populatedLangCount (item : Item) : Nat :=
  (item.filter (fun kv => isLanguageKey kv.1 && truthyStr kv.2)).length

/-- `FileProcessor._process_item_wrapper`: returns `(index, none)` (the
skip sentinel) when the item has no populated language field, otherwise
the processed item; a worker-level exception is caught and converted to a
pass-through of the original item. -/
def processItemWrapper (itemIndex : Nat) (item : Item)
    (api : Except Unit (List (String × String))) : Nat × Option Item :=
  if (item.filter (fun kv => isLanguageKey kv.1 && truthyStr kv.2)).length < 1 then
    (itemIndex, none)
  else
    match translateItemE item api with
    | .ok processed => (itemIndex, some processed)
    | .error _ => (itemIndex, some item)

/-! ## The drain loop of `FileProcessor.run`

Worker completions arrive in an arbitrary order; each is inserted into
`results_buffer`, then `while next_index_to_write in results_buffer` the
buffered outcome is popped, appended to the staging log when truthy, and
the progress file is rewritten with `next_index_to_write + 1`.

Because `_process_item_wrapper` is deterministic per index, the buffer
value for index `i` is always `outcomes i`; the buffer is therefore
modelled as the `Finset` of indices received but not yet flushed. -/

/-- One durable event of the drain loop: an index being flushed (its
outcome appended to the staging log when truthy) or a checkpoint write. -/
inductive DrainEvent where
  | flushed (idx : Nat) (outcome : Option Item)
  | cp (value : Nat)
deriving DecidableEq

/-- `if buffered_item: jsonl_file.write(...)`: a skip sentinel (`None`)
or a falsy (empty) item is not written; otherwise one line is appended. -/
def truthyItem (b : Option Item) : List Item :=
  match b with
  | some it => if it.isEmpty then [] else [it]
  | none => []

/-- State of the drain loop: the next index to write, the buffered
indices, the staging-log contents and the durable event trace. -/
structure DrainState where
  next : Nat
  received : Finset Nat
  log : List Item
  trace : List DrainEvent

/-- The inner `while next_index_to_write in results_buffer` loop, with
explicit fuel (the caller passes the buffer size, which bounds the number
of iterations since each iteration removes one buffered index). -/
def flushLoopF (o : Nat → Option Item) : Nat → DrainState → DrainState
  | 0, s => s
  | fuel + 1, s =>
    if s.next ∈ s.received then
      flushLoopF o fuel
        { next := s.next + 1
          received := s.received.erase s.next
          log := s.log ++ truthyItem (o s.next)
          trace := s.trace ++ [.flushed s.next (o s.next), .cp (s.next + 1)] }
    else s

/-- Handling of one worker completion in `as_completed`: buffer the
result, then flush the buffer in order. -/
def drainStep (o : Nat → Option Item) (s : DrainState) (i : Nat) : DrainState :=
  flushLoopF o (insert i s.received).card { s with received := insert i s.received }

/-- Drain-loop state at the start of a run resumed at index `c`. -/
def drainInit (c : Nat) : DrainState :=
  { next := c, received := ∅, log := [], trace := [] }

/-- The whole drain loop of `FileProcessor.run`: worker completions
arrive in the order given by `arrivals`. -/
def drainRun (c : Nat) (o : Nat → Option Item) (arrivals : List Nat) : DrainState :=
  arrivals.foldl (drainStep o) (drainInit c)

/-- Loop invariant of the drain loop, relative to the set `A` of indices
delivered so far: the flushed window `[c, next)` is exactly the delivered
prefix, the buffer holds the delivered indices at or above `next`, and
log and trace are the canonical in-order records of the flushed window. -/
structure DrainInv (c : Nat) (o : Nat → Option Item) (A : Finset Nat) (s : DrainState) : Prop where
  lower : c ≤ s.next
  arrivedBelow : ∀ j, c ≤ j → j < s.next → j ∈ A
  recv : s.received = A.filter (fun j => s.next ≤ j)
  logEq : s.log = (List.range' c (s.next - c)).flatMap (fun i => truthyItem (o i))
  traceEq : s.trace = (List.range' c (s.next - c)).flatMap
      (fun i => [DrainEvent.flushed i (o i), DrainEvent.cp (i + 1)])

lemma range'_snoc (s n : Nat) : List.range' s (n + 1) = List.range' s n ++ [s + n] := by
  simpa using @List.range'_concat 1 s n

lemma flushLoopF_inv (c : Nat) (o : Nat → Option Item) (A : Finset Nat) :
    ∀ (fuel : Nat) (s : DrainState), s.received.card ≤ fuel → DrainInv c o A s →
      DrainInv c o A (flushLoopF o fuel s) ∧ (flushLoopF o fuel s).next ∉ A := by
  intro fuel
  induction fuel with
  | zero =>
    intro s hcard hinv
    have hempty : s.received = ∅ := Finset.card_eq_zero.mp (Nat.le_zero.mp hcard)
    refine ⟨hinv, fun hmem => ?_⟩
    have : s.next ∈ s.received := by
      rw [hinv.recv]
      exact Finset.mem_filter.mpr ⟨hmem, le_refl _⟩
    rw [hempty] at this
    exact absurd this (Finset.not_mem_empty _)
  | succ fuel ih =>
    intro s hcard hinv
    rw [flushLoopF]
    by_cases hmem : s.next ∈ s.received
    · simp only [if_pos hmem]
      have hlow : c ≤ s.next := hinv.lower
      have hnextA : s.next ∈ A := by
        have := hinv.recv ▸ hmem
        exact (Finset.mem_filter.mp this).1
      have hcard' : (s.received.erase s.next).card ≤ fuel := by
        rw [Finset.card_erase_of_mem hmem]
        omega
      have hsub : s.next + 1 - c = (s.next - c) + 1 := by omega
      have hrange : List.range' c (s.next + 1 - c) =
          List.range' c (s.next - c) ++ [s.next] := by
        rw [hsub, range'_snoc]
        congr 1
        simp only [List.cons.injEq, and_true]
        omega
      refine ih _ hcard' ?_
      refine ⟨Nat.le_succ_of_le hlow, ?_, ?_, ?_, ?_⟩
      · intro j hcj hj
        rcases Nat.lt_succ_iff_lt_or_eq.mp hj with h | h
        · exact hinv.arrivedBelow j hcj h
        · exact h ▸ hnextA
      · show s.received.erase s.next = A.filter (fun j => s.next + 1 ≤ j)
        rw [hinv.recv]
        ext j
        simp only [Finset.mem_erase, Finset.mem_filter]
        constructor
        · rintro ⟨hne, hjA, hle⟩
          exact ⟨hjA, by omega⟩
        · rintro ⟨hjA, hle⟩
          exact ⟨by omega, hjA, by omega⟩
      · show s.log ++ truthyItem (o s.next) = _
        rw [hinv.logEq, hrange, List.flatMap_append]
        simp
      · show s.trace ++ _ = _
        rw [hinv.traceEq, hrange, List.flatMap_append]
        simp
    · simp only [if_neg hmem]
      refine ⟨hinv, fun hA => hmem ?_⟩
      rw [hinv.recv]
      exact Finset.mem_filter.mpr ⟨hA, le_refl _⟩

lemma drainStep_inv (c : Nat) (o : Nat → Option Item) (A : Finset Nat)
    (s : DrainState) (i : Nat) (hinv : DrainInv c o A s)
    (hci : c ≤ i) (hiA : i ∉ A) :
    DrainInv c o (insert i A) (drainStep o s i) ∧ (drainStep o s i).next ∉ insert i A := by
  have hge : s.next ≤ i := by
    by_contra h
    exact hiA (hinv.arrivedBelow i hci (by omega))
  have hinv' : DrainInv c o (insert i A) { s with received := insert i s.received } := by
    refine ⟨hinv.lower, ?_, ?_, hinv.logEq, hinv.traceEq⟩
    · intro j hcj hj
      exact Finset.mem_insert_of_mem (hinv.arrivedBelow j hcj hj)
    · show insert i s.received = (insert i A).filter (fun j => s.next ≤ j)
      rw [hinv.recv]
      ext j
      simp only [Finset.mem_insert, Finset.mem_filter]
      constructor
      · rintro (h | ⟨hjA, hle⟩)
        · exact ⟨Or.inl h, h ▸ hge⟩
        · exact ⟨Or.inr hjA, hle⟩
      · rintro ⟨h | hjA, hle⟩
        · exact Or.inl h
        · exact Or.inr ⟨hjA, hle⟩
  exact flushLoopF_inv c o (insert i A) _ _ (le_refl _) hinv'

lemma drainFold_inv (c : Nat) (o : Nat → Option Item) :
    ∀ (as : List Nat) (A : Finset Nat) (s : DrainState),
      DrainInv c o A s → s.next ∉ A → as.Nodup → (∀ i ∈ as, c ≤ i ∧ i ∉ A) →
      DrainInv c o (A ∪ as.toFinset) (as.foldl (drainStep o) s) ∧
        (as.foldl (drainStep o) s).next ∉ A ∪ as.toFinset := by
  intro as
  induction as with
  | nil =>
    intro A s hinv hnext _ _
    simpa using ⟨hinv, hnext⟩
  | cons a as ih =>
    intro A s hinv hnext hnd hbounds
    have ha := hbounds a (List.mem_cons_self a as)
    obtain ⟨hstep, hstepnext⟩ := drainStep_inv c o A s a hinv ha.1 ha.2
    have hnd' : as.Nodup := (List.nodup_cons.mp hnd).2
    have hana : a ∉ as := (List.nodup_cons.mp hnd).1
    have hbounds' : ∀ i ∈ as, c ≤ i ∧ i ∉ insert a A := by
      intro i hi
      have := hbounds i (List.mem_cons_of_mem a hi)
      refine ⟨this.1, ?_⟩
      simp only [Finset.mem_insert, not_or]
      exact ⟨fun h => hana (h ▸ hi), this.2⟩
    have := ih (insert a A) (drainStep o s a) hstep hstepnext hnd' hbounds'
    have hset : insert a A ∪ as.toFinset = A ∪ (a :: as).toFinset := by
      simp only [List.toFinset_cons]
      ext j
      simp only [Finset.mem_union, Finset.mem_insert]
      tauto
    rw [hset] at this
    simpa using this

/-- The central drain-loop theorem: if the completions of the work set
`[c, c + m)` arrive in any order, the loop flushes all of them, the
staging log is the canonical in-order record of their truthy outcomes,
and the durable trace interleaves each flush with the checkpoint write of
the following index. -/
lemma drainRun_spec (c m : Nat) (o : Nat → Option Item) (arrivals : List Nat)
    (hperm : arrivals.Perm (List.range' c m)) :
    (drainRun c o arrivals).next = c + m ∧
    (drainRun c o arrivals).log = (List.range' c m).flatMap (fun i => truthyItem (o i)) ∧
    (drainRun c o arrivals).trace = (List.range' c m).flatMap
      (fun i => [DrainEvent.flushed i (o i), DrainEvent.cp (i + 1)]) := by
  have hinv0 : DrainInv c o ∅ (drainInit c) := by
    refine ⟨le_refl _, ?_, ?_, ?_, ?_⟩ <;>
      simp [drainInit]
  have hnd : arrivals.Nodup := hperm.nodup_iff.mpr (List.nodup_range' c m)
  have hbounds : ∀ i ∈ arrivals, c ≤ i ∧ i ∉ (∅ : Finset Nat) := by
    intro i hi
    have := List.mem_range'_1.mp (hperm.mem_iff.mp hi)
    exact ⟨this.1, Finset.not_mem_empty i⟩
  obtain ⟨hinv, hnotin⟩ := drainFold_inv c o arrivals ∅ (drainInit c) hinv0
    (Finset.not_mem_empty c) hnd hbounds
  have hmemA : ∀ j, j ∈ (∅ : Finset Nat) ∪ arrivals.toFinset ↔ c ≤ j ∧ j < c + m := by
    intro j
    simp only [Finset.empty_union, List.mem_toFinset]
    rw [hperm.mem_iff]
    exact List.mem_range'_1
  set final := arrivals.foldl (drainStep o) (drainInit c) with hfinal
  have hnextub : final.next ≤ c + m := by
    by_contra h
    have : c + m ∈ (∅ : Finset Nat) ∪ arrivals.toFinset :=
      hinv.arrivedBelow (c + m) (by omega) (by omega)
    have := (hmemA (c + m)).mp this
    omega
  have hnextlb : c + m ≤ final.next := by
    by_contra h
    exact hnotin ((hmemA final.next).mpr ⟨hinv.lower, by omega⟩)
  have hnext : final.next = c + m := by omega
  have hm : final.next - c = m := by omega
  refine ⟨hnext, ?_, ?_⟩
  · have := hinv.logEq
    rwa [hm] at this
  · have := hinv.traceEq
    rwa [hm] at this

/-! ## Outcomes of the worker pool and the staging log -/

/-- The deterministic outcome the worker pool delivers for index `i` of
collection `data` under the API oracle `api`. -/
def outcomesOf (data : List Item) (api : Nat → Except Unit (List (String × String))) :
    Nat → Option Item :=
  fun i => (processItemWrapper i (data.getD i []) (api i)).2

lemma setKey_length_le (it : Item) (k v : String) : it.length ≤ (setKey it k v).length := by
  unfold setKey
  split
  · simp
  · simp

lemma applyTranslations_length_le (missing : List String) (ts : List (String × String)) :
    ∀ item : Item, item.length ≤ (applyTranslations item missing ts).length := by
  unfold applyTranslations
  induction ts with
  | nil => intro item; simp
  | cons kv ts ih =>
    intro item
    simp only [List.foldl_cons]
    refine le_trans ?_ (ih (if missing.contains kv.1 then setKey item kv.1 kv.2 else item))
    split
    · exact setKey_length_le item kv.1 kv.2
    · exact le_refl _

lemma translateItemE_ok_length (item : Item) (api : Except Unit (List (String × String)))
    (r : Item) (h : translateItemE item api = .ok r) : item.length ≤ r.length := by
  unfold translateItemE at h
  by_cases hm : (missingOf item).isEmpty
  · rw [if_pos hm] at h
    obtain rfl : item = r := Except.ok.inj h
    exact le_refl _
  · rw [if_neg hm] at h
    cases hg : getSourceLanguage item with
    | none =>
      simp only [hg] at h
      obtain rfl : item = r := Except.ok.inj h
      exact le_refl _
    | some p =>
      simp only [hg] at h
      cases api with
      | error e => simp at h
      | ok ts =>
        simp only [] at h
        have hr := Except.ok.inj h
        exact hr ▸ applyTranslations_length_le _ ts item

lemma processItemWrapper_ne_some_nil (i : Nat) (item : Item)
    (api : Except Unit (List (String × String))) :
    (processItemWrapper i item api).2 ≠ some ([] : Item) := by
  unfold processItemWrapper
  split
  · simp
  · rename_i hlen
    have hpos : 0 < item.length := by
      rcases item with _ | ⟨kv, rest⟩
      · simp at hlen
      · simp
    cases h : translateItemE item api with
    | ok r =>
      have hlen2 := translateItemE_ok_length item api r h
      simp only [ne_eq, Option.some.injEq]
      intro hr
      rw [hr, List.length_nil, Nat.le_zero] at hlen2
      omega
    | error e =>
      simp only [ne_eq, Option.some.injEq]
      intro hr
      rw [hr] at hpos
      simp at hpos

lemma truthyItem_none : truthyItem none = [] := rfl

lemma truthyItem_some (it : Item) : truthyItem (some it) = if it.isEmpty then [] else [it] := rfl

lemma flatMap_truthy_eq_filterMap (o : Nat → Option Item) (l : List Nat)
    (h : ∀ i ∈ l, o i ≠ some ([] : Item)) :
    l.flatMap (fun i => truthyItem (o i)) = l.filterMap o := by
  induction l with
  | nil => rfl
  | cons a l ih =>
    have ha := h a (List.mem_cons_self a l)
    have htail := ih fun i hi => h i (List.mem_cons_of_mem a hi)
    cases ho : o a with
    | none =>
      simp only [List.flatMap_cons, List.filterMap_cons, ho, truthyItem_none,
        List.nil_append, htail]
    | some it =>
      have hne : it ≠ [] := fun he => ha (he ▸ ho)
      rw [List.flatMap_cons, List.filterMap_cons, ho, truthyItem_some,
        if_neg (by simpa using hne), htail, List.singleton_append]

/-- A fresh, uninterrupted run of `FileProcessor.run` on `data` followed
by `finalize_and_cleanup`: the final artifact holds exactly the
staging-log contents (in-order completion schedule; by `drainRun_spec`
the log does not depend on the schedule). -/
def processFileArtifact (data : List Item)
    (api : Nat → Except Unit (List (String × String))) : List Item :=
  (drainRun 0 (outcomesOf data api) (List.range data.length)).log

/-- The sequence of values handed to `write_progress` during a drain, in
order. -/
def cpWrites (t : List DrainEvent) : List Nat :=
  t.filterMap (fun e => match e with | .cp v => some v | .flushed _ _ => none)

lemma cpWrites_canonical (o : Nat → Option Item) :
    ∀ (m c : Nat), cpWrites ((List.range' c m).flatMap
        (fun i => [DrainEvent.flushed i (o i), DrainEvent.cp (i + 1)]))
      = List.range' (c + 1) m := by
  intro m
  induction m with
  | zero => intro c; rfl
  | succ m ih =>
    intro c
    rw [List.range'_succ c m 1, List.range'_succ (c + 1) m 1]
    simp only [List.flatMap_cons, cpWrites, List.filterMap_append]
    have := ih (c + 1)
    simp only [cpWrites] at this
    rw [this]
    rfl

lemma chain'_le_range' (s n : Nat) : List.Chain' (· ≤ ·) (List.range' s n) := by
  induction n generalizing s with
  | zero => simp
  | succ n ih =>
    rw [List.range'_succ s n 1]
    cases n with
    | zero => simp
    | succ n =>
      rw [List.range'_succ (s + 1) n 1]
      refine List.chain'_cons.mpr ⟨Nat.le_succ s, ?_⟩
      have := ih (s + 1)
      rwa [List.range'_succ (s + 1) n 1] at this

/-- In the canonical drain trace, every checkpoint write of `v` is
preceded by the flush of index `v - 1`. -/
lemma cp_only_after_flush (o : Nat → Option Item) :
    ∀ (m c : Nat) (t1 t2 : List DrainEvent) (v : Nat),
      (List.range' c m).flatMap
          (fun i => [DrainEvent.flushed i (o i), DrainEvent.cp (i + 1)])
        = t1 ++ DrainEvent.cp v :: t2 →
      DrainEvent.flushed (v - 1) (o (v - 1)) ∈ t1 := by
  intro m
  induction m with
  | zero =>
    intro c t1 t2 v h
    simp at h
  | succ m ih =>
    intro c t1 t2 v h
    rw [List.range'_succ c m 1] at h
    simp only [List.flatMap_cons, List.cons_append, List.nil_append] at h
    match t1, h with
    | [], h =>
      simp only [List.nil_append, List.cons.injEq] at h
      exact absurd h.1 (by simp)
    | [x], h =>
      simp only [List.cons_append, List.nil_append, List.cons.injEq] at h
      obtain ⟨hx, hcp, -⟩ := h
      injection hcp with hv
      subst hv
      subst hx
      simp only [Nat.add_sub_cancel]
      exact List.mem_singleton.mpr rfl
    | x :: y :: t1', h =>
      simp only [List.cons_append, List.cons.injEq] at h
      obtain ⟨hx, hy, hrest⟩ := h
      have := ih (c + 1) t1' t2 v hrest
      exact List.mem_cons_of_mem x (List.mem_cons_of_mem y this)

/-! ## Claims C1, C2, C3, C7 -/

/-- A small concrete collection used to instantiate the theorems with
hypotheses: item 0 has one populated and one empty language field, item 1
has none, item 2 has a populated `fr` field and an empty `de` field. -/
def sampleData : List Item :=
  [[("de", "a"), ("en", "")], [], [("fr", "b"), ("de", "")]]

/-- An API oracle that always returns a falsy (empty) translation map. -/
def apiEmpty : Nat → Except Unit (List (String × String)) := fun _ => .ok []

/-- C1 counterexample: the item `{"en": "Hi"}` has exactly one populated
language field, yet `_process_item_wrapper` skips only items with zero
populated language fields (`len(available_langs) < 1`), so the item is
written to the staging log and the final artifact is `[{"en": "Hi"}]`,
not `[]` as the claim's scenario demands. -/
theorem claim_C1_counterexample :
    populatedLangCount [("en", "Hi")] = 1 ∧
    processFileArtifact [[("en", "Hi")]] apiEmpty = [[("en", "Hi")]] ∧
    processFileArtifact [[("en", "Hi")]] apiEmpty ≠ ([] : List Item) := by
  refine ⟨by decide, by decide, by decide⟩

/-- C1 amended: an item is skipped (outcome `none`, excluded from the
staging log and final artifact) iff it has zero populated language
fields; the checkpoint cursor still advances past every evaluated index,
skipped or not; and the one-language collection `[{"en": "Hi"}]` yields
the final artifact `[{"en": "Hi"}]`. -/
theorem claim_C1_skip_zero_languages :
    (∀ (i : Nat) (item : Item) (api : Except Unit (List (String × String))),
        (processItemWrapper i item api).2 = none ↔ populatedLangCount item = 0)
    ∧ (∀ (len : Nat) (o : Nat → Option Item), (drainRun 0 o (List.range len)).next = len)
    ∧ processFileArtifact [[("en", "Hi")]] apiEmpty = [[("en", "Hi")]] := by
  refine ⟨?_, ?_, by decide⟩
  · intro i item api
    unfold processItemWrapper populatedLangCount
    split
    · rename_i hlt
      simp only [true_iff]
      omega
    · rename_i hge
      have hr : ∃ r, (match translateItemE item api with
          | .ok processed => (i, some processed)
          | .error _ => (i, some item)).2 = some r := by
        cases h : translateItemE item api <;> simp
      obtain ⟨r, hr⟩ := hr
      rw [hr]
      exact iff_of_false (by simp) (by omega)
  · intro len o
    have := drainRun_spec 0 len o (List.range len)
      (by rw [List.range_eq_range' len])
    simpa using this.1

/-- C2: for every completion order (any permutation of the work set
`[c, length)`), the staging log equals the outcomes of the non-skipped
indices of the original collection, in increasing original-index order. -/
theorem claim_C2_order_preservation (data : List Item)
    (api : Nat → Except Unit (List (String × String))) (c : Nat) (arrivals : List Nat)
    (hperm : arrivals.Perm (List.range' c (data.length - c))) :
    (drainRun c (outcomesOf data api) arrivals).log
      = (List.range' c (data.length - c)).filterMap (outcomesOf data api) := by
  obtain ⟨-, hlog, -⟩ := drainRun_spec c (data.length - c) (outcomesOf data api) arrivals hperm
  rw [hlog, flatMap_truthy_eq_filterMap]
  intro i _
  exact processItemWrapper_ne_some_nil i (data.getD i []) (api i)

/-- C2 witness: a three-item collection whose completions arrive in the
order 2, 0, 1 still produces the staging log `[item 0, item 2]` (item 1
is skipped as it has no language fields). -/
theorem claim_C2_order_preservation_witness :
    (drainRun 0 (outcomesOf sampleData apiEmpty) [2, 0, 1]).log
      = [[("de", "a"), ("en", "")], [("fr", "b"), ("de", "")]] :=
  (claim_C2_order_preservation sampleData apiEmpty 0 [2, 0, 1] (by decide)).trans (by decide)

/-- C3: in one drain of the work set `[c, length)`, the sequence of
values written to the checkpoint is exactly `c+1, c+2, …, length` —
non-decreasing and never exceeding the collection length — and every
checkpoint write of `v` occurs strictly after the outcome of index `v-1`
was flushed to the staging log. -/
theorem claim_C3_checkpoint_monotonicity (data : List Item)
    (api : Nat → Except Unit (List (String × String))) (c : Nat) (arrivals : List Nat)
    (hperm : arrivals.Perm (List.range' c (data.length - c))) :
    cpWrites (drainRun c (outcomesOf data api) arrivals).trace
        = List.range' (c + 1) (data.length - c)
    ∧ List.Chain' (· ≤ ·) (cpWrites (drainRun c (outcomesOf data api) arrivals).trace)
    ∧ (∀ v ∈ cpWrites (drainRun c (outcomesOf data api) arrivals).trace, v ≤ data.length)
    ∧ (∀ (t1 t2 : List DrainEvent) (v : Nat),
        (drainRun c (outcomesOf data api) arrivals).trace = t1 ++ DrainEvent.cp v :: t2 →
        DrainEvent.flushed (v - 1) (outcomesOf data api (v - 1)) ∈ t1) := by
  obtain ⟨-, -, htrace⟩ :=
    drainRun_spec c (data.length - c) (outcomesOf data api) arrivals hperm
  rw [htrace, cpWrites_canonical]
  refine ⟨rfl, chain'_le_range' _ _, ?_, ?_⟩
  · intro v hv
    have := List.mem_range'_1.mp hv
    omega
  · intro t1 t2 v h
    exact cp_only_after_flush (outcomesOf data api) (data.length - c) c t1 t2 v h

/-- C3 witness: resuming `sampleData` at index 1 with completions
arriving out of order writes checkpoints 2 then 3. -/
theorem claim_C3_checkpoint_monotonicity_witness :
    cpWrites (drainRun 1 (outcomesOf sampleData apiEmpty) [2, 1]).trace = [2, 3] :=
  (claim_C3_checkpoint_monotonicity sampleData apiEmpty 1 [2, 1] (by decide)).1.trans (by decide)

lemma getSourceLanguage_some_populated (item : Item) (p : String × String)
    (h : getSourceLanguage item = some p) :
    0 < (item.filter (fun kv => isLanguageKey kv.1 && truthyStr kv.2)).length := by
  unfold getSourceLanguage at h
  cases hf : SOURCE_LANG_PRIORITY.find?
      (fun l => (lookup item l).getD "" ≠ "" && isLanguageKey l) with
  | some l =>
    have hcond := List.find?_some hf
    simp only [Bool.and_eq_true, decide_eq_true_eq] at hcond
    obtain ⟨hne, hlang⟩ := hcond
    cases hkv : item.find? (fun kv => kv.1 = l) with
    | none => rw [lookup, hkv] at hne; simp at hne
    | some kv =>
      have hmem := List.mem_of_find?_eq_some hkv
      have hkey : kv.1 = l := by
        have := List.find?_some hkv
        simpa using this
      have hval : kv.2 ≠ "" := by
        rw [lookup, hkv] at hne
        simpa using hne
      have : kv ∈ item.filter (fun kv => isLanguageKey kv.1 && truthyStr kv.2) := by
        refine List.mem_filter.mpr ⟨hmem, ?_⟩
        simp only [Bool.and_eq_true]
        refine ⟨hkey ▸ hlang, ?_⟩
        simp [truthyStr, hval]
      exact List.length_pos.mpr (List.ne_nil_of_mem this)
  | none =>
    rw [hf] at h
    have hmem := List.mem_of_find?_eq_some h
    have hcond := List.find?_some h
    exact List.length_pos.mpr (List.ne_nil_of_mem (List.mem_filter.mpr ⟨hmem, hcond⟩))

/-- C7: when the per-item processing raises (the translation call
errors), `_process_item_wrapper` catches the exception and returns the
original, unmodified item — not the skip sentinel — and the drain loop
still advances the cursor past that index when the outcome arrives. -/
theorem claim_C7_exception_passthrough (i : Nat) (item : Item)
    (api : Except Unit (List (String × String))) (e : Unit)
    (herr : translateItemE item api = .error e) :
    processItemWrapper i item api = (i, some item)
    ∧ (drainRun i (fun j => if j = i then (processItemWrapper i item api).2 else none)
        [i]).next = i + 1 := by
  have hsrc : ∃ p, getSourceLanguage item = some p := by
    unfold translateItemE at herr
    by_cases hm : (missingOf item).isEmpty
    · rw [if_pos hm] at herr; simp at herr
    · rw [if_neg hm] at herr
      cases hg : getSourceLanguage item with
      | none => simp only [hg] at herr; simp at herr
      | some p => exact ⟨p, rfl⟩
  obtain ⟨p, hp⟩ := hsrc
  have hpos := getSourceLanguage_some_populated item p hp
  constructor
  · unfold processItemWrapper
    rw [if_neg (by omega), herr]
  · have := drainRun_spec i 1
      (fun j => if j = i then (processItemWrapper i item api).2 else none) [i]
      (by rw [List.range'_one])
    exact this.1

/-- C7 witness: an item with a populated `de` field and an empty `en`
field, whose translation call raises, is passed through unmodified. -/
theorem claim_C7_exception_passthrough_witness :
    translateItemE [("de", "Hallo"), ("en", "")] (.error ()) = .error ()
    ∧ processItemWrapper 0 [("de", "Hallo"), ("en", "")] (.error ())
        = (0, some [("de", "Hallo"), ("en", "")]) :=
  ⟨by rfl,
    (claim_C7_exception_passthrough 0 [("de", "Hallo"), ("en", "")] (.error ()) ()
      (by rfl)).1⟩

/-! ## Claim C4: idempotent resume -/

/-- The staging-log contents after a fresh run that crashed once exactly
`k` items had been flushed: checkpoint `k`, log holding the non-skipped
outcomes of indices `[0, k)`. -/
def crashLog (k : Nat) (data : List Item)
    (api : Nat → Except Unit (List (String × String))) : List Item :=
  (drainRun 0 (outcomesOf data api) (List.range k)).log

/-- A run of `FileProcessor.run` resumed at cursor `c` with prior staging
log `prevLog`, followed by finalization: if `c >= len` the artifact is the
existing log; otherwise the log is opened in mode `"a"` iff `c > 0`
(truncated otherwise) and the work set `[c, len)` is drained. -/
def runFromResume (c : Nat) (data : List Item)
    (api : Nat → Except Unit (List (String × String))) (prevLog : List Item) : List Item :=
  if data.length ≤ c then prevLog
  else (if 0 < c then prevLog else [])
    ++ (drainRun c (outcomesOf data api) (List.range' c (data.length - c))).log

lemma range'_zero_append (k n : Nat) (hk : k ≤ n) :
    List.range' 0 k ++ List.range' k (n - k) = List.range' 0 n := by
  have h := List.range'_append_1 0 k (n - k)
  rw [Nat.zero_add] at h
  rw [h]
  congr 1
  omega

lemma drainRun_log_filterMap (c m : Nat) (data : List Item)
    (api : Nat → Except Unit (List (String × String))) (arrivals : List Nat)
    (hperm : arrivals.Perm (List.range' c m)) :
    (drainRun c (outcomesOf data api) arrivals).log
      = (List.range' c m).filterMap (outcomesOf data api) := by
  obtain ⟨-, hlog, -⟩ := drainRun_spec c m (outcomesOf data api) arrivals hperm
  rw [hlog, flatMap_truthy_eq_filterMap]
  intro i _
  exact processItemWrapper_ne_some_nil i (data.getD i []) (api i)

/-- C4: crash after exactly `k` flushed items (`k < length`), then resume
and run to completion — the final artifact equals that of one
uninterrupted run, for a deterministic translation collaborator. -/
theorem claim_C4_idempotent_resume (data : List Item)
    (api : Nat → Except Unit (List (String × String))) (k : Nat) (hk : k < data.length) :
    runFromResume k data api (crashLog k data api) = processFileArtifact data api := by
  have hcrash : crashLog k data api = (List.range' 0 k).filterMap (outcomesOf data api) :=
    drainRun_log_filterMap 0 k data api (List.range k) (by rw [List.range_eq_range' k])
  have hsecond := drainRun_log_filterMap k (data.length - k) data api
    (List.range' k (data.length - k)) (List.Perm.refl _)
  have hfull : processFileArtifact data api
      = (List.range' 0 data.length).filterMap (outcomesOf data api) :=
    drainRun_log_filterMap 0 data.length data api (List.range data.length)
      (by rw [List.range_eq_range' data.length])
  unfold runFromResume
  rw [if_neg (by omega), hcrash, hsecond, hfull]
  by_cases hk0 : 0 < k
  · rw [if_pos hk0, ← List.filterMap_append, range'_zero_append k data.length (by omega)]
  · have : k = 0 := by omega
    subst this
    simp

/-- C4 witness at `k = 1` on the three-item sample collection. -/
theorem claim_C4_idempotent_resume_witness :
    1 < sampleData.length
    ∧ runFromResume 1 sampleData apiEmpty (crashLog 1 sampleData apiEmpty)
        = processFileArtifact sampleData apiEmpty :=
  ⟨by decide, claim_C4_idempotent_resume sampleData apiEmpty 1 (by decide)⟩

/-! ## Claims C8 and C10: resume window and `read_progress` -/

/-- Python `range(a, b)` over (possibly negative) integers. -/
def pythonRange (a b : Int) : List Int :=
  (List.range (b - a).toNat).map (fun n : Nat => a + (n : Int))

/-- The dispatch decision of `FileProcessor.run` after reading the resume
index: finalize immediately (`resume_index >= len(source_data)`, or an
empty work list), or submit the work set to the pool; `appendMode` is
whether the staging log is opened in `"a"` mode (`resume_index > 0`)
rather than truncated (`"w"`). -/
structure RunPlan where
  finalizesImmediately : Bool
  submitted : List Int
  appendMode : Bool
deriving DecidableEq

/-- The resume logic of `FileProcessor.run` (lines 162–222): read cursor,
finalize when past the end, otherwise submit `range(resume_index, len)`. -/
def runPlan (resumeIndex : Int) (len : Nat) : RunPlan :=
  if (len : Int) ≤ resumeIndex then ⟨true, [], false⟩
  else
    let items := pythonRange resumeIndex len
    if items.isEmpty then ⟨true, [], false⟩
    else ⟨false, items, decide (0 < resumeIndex)⟩

lemma pythonRange_eq_range' (k len : Nat) :
    pythonRange (k : Int) len = (List.range' k (len - k)).map (fun n : Nat => (n : Int)) := by
  unfold pythonRange
  have h1 : ((len : Int) - k).toNat = len - k := by omega
  rw [h1]
  induction len - k with
  | zero => rfl
  | succ m ih =>
    rw [List.range_succ, range'_snoc, List.map_append, List.map_append, ih]
    simp

/-- C8: on resume with a non-negative cursor `c`, either `c ≥ length` and
the run finalizes immediately with no submissions, or exactly the indices
`[c, length)` are submitted — never an index below `c`. -/
theorem claim_C8_resume_window (c : Int) (len : Nat) (h0 : 0 ≤ c) :
    ((len : Int) ≤ c → runPlan c len = ⟨true, [], false⟩)
    ∧ (c < (len : Int) →
        (runPlan c len).finalizesImmediately = false
        ∧ (runPlan c len).submitted
            = (List.range' c.toNat (len - c.toNat)).map (fun n : Nat => (n : Int))) := by
  obtain ⟨k, rfl⟩ : ∃ k : Nat, c = (k : Int) := ⟨c.toNat, (Int.toNat_of_nonneg h0).symm⟩
  constructor
  · intro hle
    unfold runPlan
    rw [if_pos hle]
  · intro hlt
    have hk : k < len := by omega
    have hmem : (k : Int) ∈ pythonRange (k : Int) len := by
      rw [pythonRange_eq_range' k len]
      refine List.mem_map.mpr ⟨k, ?_, rfl⟩
      rw [List.mem_range'_1]
      omega
    have hne : (pythonRange (k : Int) len).isEmpty = false := by
      cases hp : pythonRange (k : Int) len
      · rw [hp] at hmem
        simp at hmem
      · rfl
    unfold runPlan
    rw [if_neg (by omega)]
    simp only [hne, Bool.false_eq_true, if_false]
    refine ⟨trivial, ?_⟩
    rw [Int.toNat_natCast]
    exact pythonRange_eq_range' k len

/-- C8 witness: checkpoint 5 with a 10-item collection submits exactly
the indices 5 through 9. -/
theorem claim_C8_resume_window_witness :
    (runPlan 5 10).finalizesImmediately = false
    ∧ (runPlan 5 10).submitted = [5, 6, 7, 8, 9] :=
  ⟨((claim_C8_resume_window 5 10 (by decide)).2 (by decide)).1,
    ((claim_C8_resume_window 5 10 (by decide)).2 (by decide)).2.trans (by decide)⟩

/-- Python `str.strip()`: remove leading and trailing whitespace. -/
def pyStrip (s : String) : String :=
  String.mk (((s.toList.dropWhile Char.isWhitespace).reverse.dropWhile Char.isWhitespace).reverse)

/-- Numeric value of a digit string. -/
def digitsVal (l : List Char) : Nat :=
  l.foldl (fun acc c => 10 * acc + (c.toNat - Char.toNat '0')) 0

/-- Python `int(str)` on an already-stripped string, for the
optional-sign decimal fragment (underscore separators and non-decimal
escapes of `int()` are not exercised by the checkpoint format, which
`write_progress` always writes as `str(index)`). -/
def parsePyInt (s : String) : Option Int :=
  match s.toList with
  | [] => none
  | '+' :: rest =>
    if !rest.isEmpty && rest.all Char.isDigit then some (digitsVal rest) else none
  | '-' :: rest =>
    if !rest.isEmpty && rest.all Char.isDigit then some (-(digitsVal rest : Int)) else none
  | l =>
    if l.all Char.isDigit then some (digitsVal l) else none

/-- `read_progress`: total — `0` for a missing file (or one whose read
raises `IOError`, modelled as `none`) and for unparsable contents, the
parsed integer otherwise, negative values included. -/
def readProgress (file : Option String) : Int :=
  match file with
  | none => 0
  | some s =>
    match parsePyInt (pyStrip s) with
    | some n => n
    | none => 0

/-- C10: `read_progress` never raises — it returns 0 for a missing
checkpoint and for contents that do not parse as an integer, and the
parsed integer of the stripped contents otherwise, including negative
values; `FileProcessor.run` feeds that value to its dispatch logic
unvalidated, so a checkpoint of `-5` makes the run submit
`range(-5, len)`. -/
theorem claim_C10_read_progress_total :
    readProgress none = 0
    ∧ (∀ s : String, parsePyInt (pyStrip s) = none → readProgress (some s) = 0)
    ∧ (∀ (s : String) (n : Int), parsePyInt (pyStrip s) = some n → readProgress (some s) = n)
    ∧ readProgress (some "-5") = -5
    ∧ (runPlan (readProgress (some "-5")) 3).submitted = pythonRange (-5) 3
    ∧ (runPlan (readProgress (some "-5")) 3).appendMode = false := by
  refine ⟨rfl, ?_, ?_, by decide, by decide, by decide⟩
  · intro s h
    simp only [readProgress, h]
  · intro s n h
    simp only [readProgress, h]

/-- C10 witness: a checkpoint file containing `" -17 "` parses to `-17`. -/
theorem claim_C10_read_progress_total_witness :
    readProgress (some " -17 ") = -17 :=
  claim_C10_read_progress_total.2.2.1 " -17 " (-17) (by decide)

/-! ## Claim C9: `_translate_item` only fills empty language fields -/

lemma find?_map_setKey (c v k : String) (h : c ≠ k) (l : List (String × String)) :
    List.find? (fun kv => kv.1 = k) (l.map (fun kv => if kv.1 = c then (c, v) else kv))
      = List.find? (fun kv => kv.1 = k) l := by
  induction l with
  | nil => rfl
  | cons hd tl ih =>
    simp only [List.map_cons, List.find?_cons]
    by_cases hhd : hd.1 = c
    · rw [if_pos hhd]
      have hck : (decide (c = k)) = false := by simp [h]
      have hdk : (decide (hd.1 = k)) = false := by simp [hhd, h]
      simp only [hck, hdk, ih]
    · rw [if_neg hhd]
      cases hdk : (decide (hd.1 = k)) with
      | true => simp [hdk]
      | false => simp only [hdk, ih]

lemma lookup_setKey_ne (it : Item) (c v k : String) (h : c ≠ k) :
    lookup (setKey it c v) k = lookup it k := by
  unfold setKey
  split
  · unfold lookup
    congr 1
    exact find?_map_setKey c v k h it
  · unfold lookup
    rw [List.find?_append]
    have h2 : [(c, v)].find? (fun kv => kv.1 = k) = none := by
      simp [h]
    rw [h2]
    cases it.find? (fun kv => kv.1 = k) <;> rfl

lemma applyTranslations_lookup_frame (missing : List String) (k : String) (hk : k ∉ missing) :
    ∀ (ts : List (String × String)) (it : Item),
      lookup (applyTranslations it missing ts) k = lookup it k := by
  intro ts
  induction ts with
  | nil => intro it; rfl
  | cons kv ts ih =>
    intro it
    unfold applyTranslations at ih ⊢
    rw [List.foldl_cons]
    rw [ih]
    by_cases hc : missing.contains kv.1
    · rw [if_pos hc]
      have hne : kv.1 ≠ k := fun he => hk (he ▸ List.mem_of_elem_eq_true hc)
      exact lookup_setKey_ne it kv.1 kv.2 k hne
    · rw [if_neg hc]

/-- A key in `missing` names a language field of the item whose value is
empty. -/
lemma mem_missing_props (item : Item) (k : String) (hk : k ∈ missingOf item) :
    ∃ kv ∈ item, kv.1 = k ∧ isLanguageKey k = true ∧ kv.2 = "" := by
  obtain ⟨kv, hkvmem, hkv1⟩ := List.mem_map.mp hk
  have h2 := List.mem_filter.mp hkvmem
  have h3 := List.mem_filter.mp h2.1
  refine ⟨kv, h3.1, hkv1, hkv1 ▸ h3.2, ?_⟩
  simpa [truthyStr] using h2.2

lemma lookup_eq_of_mem (item : Item) (kv : String × String)
    (hnd : (item.map Prod.fst).Nodup) (hmem : kv ∈ item) :
    lookup item kv.1 = some kv.2 := by
  induction item with
  | nil => cases hmem
  | cons hd tl ih =>
    rcases List.mem_cons.mp hmem with h | h
    · subst h
      unfold lookup
      simp [List.find?_cons]
    · have hnd' := List.nodup_cons.mp hnd
      have hne : hd.1 ≠ kv.1 := by
        intro he
        exact hnd'.1 (he ▸ List.mem_map.mpr ⟨kv, h, rfl⟩)
      unfold lookup
      simp only [List.find?_cons]
      have : (decide (hd.1 = kv.1)) = false := by simp [hne]
      rw [this]
      exact ih hnd'.2 h

/-- `_translate_item` unfolded over the three early returns and the
successful translation path. -/
lemma translateItem_eq (item : Item) (ts : List (String × String)) :
    translateItem item ts =
      if (missingOf item).isEmpty then item
      else
        match getSourceLanguage item with
        | none => item
        | some _ => applyTranslations item (missingOf item) ts := by
  unfold translateItem translateItemE
  by_cases hm : (missingOf item).isEmpty
  · simp only [if_pos hm]
  · simp only [if_neg hm]
    cases hg : getSourceLanguage item <;> simp only []

lemma translateItem_lookup_frame (item : Item) (ts : List (String × String))
    (k : String) (hk : k ∉ missingOf item) :
    lookup (translateItem item ts) k = lookup item k := by
  rw [translateItem_eq]
  by_cases hm : (missingOf item).isEmpty
  · rw [if_pos hm]
  · rw [if_neg hm]
    cases hg : getSourceLanguage item with
    | none => rfl
    | some p => exact applyTranslations_lookup_frame (missingOf item) k hk ts item

/-- C9: `_translate_item` only writes language keys whose value was empty
in the input. Every key whose input value is non-empty keeps its value,
every non-language key keeps its value, and no key absent from the input
is added. -/
theorem claim_C9_translate_frame (item : Item) (ts : List (String × String)) (k : String)
    (hnd : (item.map Prod.fst).Nodup) :
    (∀ v : String, lookup item k = some v → v ≠ "" →
        lookup (translateItem item ts) k = some v)
    ∧ (isLanguageKey k = false → lookup (translateItem item ts) k = lookup item k)
    ∧ (lookup item k = none → lookup (translateItem item ts) k = none) := by
  refine ⟨?_, ?_, ?_⟩
  · intro v hv hne
    have hk : k ∉ missingOf item := by
      intro hk
      obtain ⟨kv, hmem, h1, -, h0⟩ := mem_missing_props item k hk
      have := lookup_eq_of_mem item kv hnd hmem
      rw [h1, hv] at this
      exact hne ((Option.some.inj this).trans h0)
    rw [translateItem_lookup_frame item ts k hk]
    exact hv
  · intro hlang
    have hk : k ∉ missingOf item := by
      intro hk
      obtain ⟨-, -, -, h2, -⟩ := mem_missing_props item k hk
      rw [hlang] at h2
      cases h2
    exact translateItem_lookup_frame item ts k hk
  · intro hnone
    have hk : k ∉ missingOf item := by
      intro hk
      obtain ⟨kv, hmem, h1, -, -⟩ := mem_missing_props item k hk
      have := lookup_eq_of_mem item kv hnd hmem
      rw [h1, hnone] at this
      cases this
    rw [translateItem_lookup_frame item ts k hk]
    exact hnone

/-- C9 witness: an item with populated `en`, empty `de` and a
non-language key keeps its populated field after translation. -/
theorem claim_C9_translate_frame_witness :
    lookup (translateItem [("en", "Hello"), ("de", ""), ("name", "x")]
      [("de", "Hallo"), ("en", "X")]) "en" = some "Hello" :=
  (claim_C9_translate_frame [("en", "Hello"), ("de", ""), ("name", "x")]
    [("de", "Hallo"), ("en", "X")] "en" (by decide)).1 "Hello" (by decide) (by decide)

/-! ## Claim C6: failure during finalization preserves working files -/

/-- Fault-injection points of `finalize_and_cleanup`, one per I/O or
decode operation in the `try` block that can raise: opening/decoding the
staging log lines, writing the temporary final file, the atomic move into
the done directory, and the three cleanup deletions. -/
inductive FinalizeFault where
  | readLog
  | writeTemp
  | moveTemp
  | unlinkLog
  | unlinkProgress
  | unlinkSource
deriving DecidableEq

/-- The files of one job: the moved source file in the processing
directory, the staging log contents (`none` = absent), the progress file,
the temporary `.json.final` file and the final artifact in the done
directory. -/
structure JobFiles where
  source : Bool
  jsonl : Option (List Item)
  progress : Bool
  temp : Bool
  final : Bool
deriving DecidableEq

/-- `finalize_and_cleanup` with an optional injected fault. A raising
operation transfers control to the `except` branch, which removes a
leftover temporary file and returns `False`; the missing-staging-log
branch moves the original source file to done unchanged and succeeds. -/
def finalizeAndCleanup (fs : JobFiles) (fault : Option FinalizeFault) : Bool × JobFiles :=
  match fs.jsonl with
  | none =>
    (true, { fs with source := false, final := true, progress := false })
  | some _ =>
    if fault = some .readLog then (false, { fs with temp := false })
    else if fault = some .writeTemp then (false, { fs with temp := false })
    else
      let fs1 := { fs with temp := true }
      if fault = some .moveTemp then (false, { fs1 with temp := false })
      else
        let fs2 := { fs1 with temp := false, final := true }
        if fault = some .unlinkLog then (false, { fs2 with temp := false })
        else
          let fs3 := { fs2 with jsonl := none }
          if fault = some .unlinkProgress then (false, { fs3 with temp := false })
          else
            let fs4 := { fs3 with progress := false }
            if fault = some .unlinkSource then (false, { fs4 with temp := false })
            else (true, { fs4 with source := false })

/-- C6: if any I/O or decode failure occurs while assembling the final
artifact from the staging log (reading/decoding the log, writing the
temporary file, or moving it into place), `finalize_and_cleanup` reports
failure and leaves the staging log, the checkpoint file and the job
source file exactly as they were. -/
theorem claim_C6_finalize_failure_preserves (fs : JobFiles) (log : List Item)
    (fault : FinalizeFault) (hlog : fs.jsonl = some log)
    (hassembly : fault = .readLog ∨ fault = .writeTemp ∨ fault = .moveTemp) :
    (finalizeAndCleanup fs (some fault)).1 = false
    ∧ (finalizeAndCleanup fs (some fault)).2.jsonl = fs.jsonl
    ∧ (finalizeAndCleanup fs (some fault)).2.progress = fs.progress
    ∧ (finalizeAndCleanup fs (some fault)).2.source = fs.source := by
  rcases hassembly with h | h | h <;> subst h <;>
    simp [finalizeAndCleanup, hlog]

/-- C6 witness: a decode failure while reading the staging log of a job
with all working files present reports failure and preserves them. -/
theorem claim_C6_finalize_failure_preserves_witness :
    (finalizeAndCleanup ⟨true, some [[("en", "x")]], true, false, false⟩
        (some .readLog)).1 = false
    ∧ (finalizeAndCleanup ⟨true, some [[("en", "x")]], true, false, false⟩
        (some .readLog)).2.jsonl
        = (⟨true, some [[("en", "x")]], true, false, false⟩ : JobFiles).jsonl
    ∧ (finalizeAndCleanup ⟨true, some [[("en", "x")]], true, false, false⟩
        (some .readLog)).2.progress
        = (⟨true, some [[("en", "x")]], true, false, false⟩ : JobFiles).progress
    ∧ (finalizeAndCleanup ⟨true, some [[("en", "x")]], true, false, false⟩
        (some .readLog)).2.source
        = (⟨true, some [[("en", "x")]], true, false, false⟩ : JobFiles).source :=
  claim_C6_finalize_failure_preserves ⟨true, some [[("en", "x")]], true, false, false⟩
    [[("en", "x")]] .readLog rfl (Or.inl rfl)

/-! ## Claim C5: `WorkerTuner.auto_tune`

The timed trials of `_run_chunk` are an oracle `ℕ → ℚ` (floats modelled
as rationals), one value per call, in call order; `processed` counts are
irrelevant to the returned worker count and are dropped. -/

/-- `TUNE_IMPROVEMENT_THRESHOLD = 0.99`. -/
def TUNE_IMPROVEMENT_THRESHOLD : ℚ := 99 / 100

/-- The tuner's measurement state: `n` is the index of the next oracle
value, `trace` records every measurement as a `(workers, items/min)`
pair, `history` mirrors the tuner's `history` list. -/
structure TuneState where
  n : Nat
  trace : List (Nat × ℚ)
  history : List (Nat × ℚ)

/-- One `_run_chunk(items, w)` call: consumes the next oracle value. -/
def runChunk (o : Nat → ℚ) (w : Nat) (st : TuneState) : ℚ × TuneState :=
  (o st.n, { st with n := st.n + 1, trace := st.trace ++ [(w, o st.n)] })

/-- Python `max(a, b)`. -/
def maxQ (a b : ℚ) : ℚ := if a < b then b else a

/-- The geometric candidate list `worker_candidates` of `auto_tune`. -/
def workerCandidates : List Nat := [1, 2, 4, 8, 12, 16, 24, 32, 48, 64, 96, 128, 256, 512]

/-- The coarse sweep loop of `auto_tune` (with `TUNE_VALIDATION_REPEAT`
set, as in the source): a candidate whose throughput exceeds 99% of the
best so far becomes `best_workers`, while `best_items_per_min` is kept as
a running maximum; on a plateau the best worker count is re-measured and
the sweep either stops (re-check within the squared threshold) or adopts
the re-check value as the new best and continues. -/
def coarseSweep (o : Nat → ℚ) : List Nat → TuneState → Nat → ℚ → Nat × ℚ × TuneState
  | [], st, bw, bs => (bw, bs, st)
  | w :: ws, st, bw, bs =>
    let m := runChunk o w st
    let st2 : TuneState := { m.2 with history := m.2.history ++ [(w, m.1)] }
    if bs * TUNE_IMPROVEMENT_THRESHOLD < m.1 then
      coarseSweep o ws st2 w (maxQ bs m.1)
    else
      let r := runChunk o bw st2
      if bs * (TUNE_IMPROVEMENT_THRESHOLD * TUNE_IMPROVEMENT_THRESHOLD) ≤ r.1 then
        (bw, bs, r.2)
      else
        coarseSweep o ws { r.2 with history := r.2.history ++ [(bw, r.1)] } bw r.1

/-- `_get_speed`: return the cached measurement for `w`, or run a new
timed test and record it in the cache and the history. -/
def getSpeed (o : Nat → ℚ) (w : Nat) (tested : Nat → Option ℚ) (st : TuneState) :
    ℚ × (Nat → Option ℚ) × TuneState :=
  match tested w with
  | some v => (v, tested, st)
  | none =>
    let m := runChunk o w st
    (m.1, fun x => if x = w then some m.1 else tested x,
      { m.2 with history := m.2.history ++ [(w, m.1)] })

/-- The `while low <= high` binary-search loop of
`_run_fine_tuning_bisection`, with explicit fuel (the interval shrinks
strictly each iteration, so `high_bound + 2` always suffices): measure
the midpoint and its successor, move the best-so-far pair only on strict
improvement, and discard the half below the slower of the two. -/
def bisectLoop (o : Nat → ℚ) :
    Nat → Nat → Nat → (Nat → Option ℚ) → TuneState → Nat → ℚ → Nat × ℚ × TuneState
  | 0, _, _, _, st, bfw, bfs => (bfw, bfs, st)
  | fuel + 1, low, high, tested, st, bfw, bfs =>
    if low ≤ high then
      let mid := (low + high) / 2
      if mid = 0 then (bfw, bfs, st)
      else
        let g1 := getSpeed o mid tested st
        let b1 := if bfs < g1.1 then (mid, g1.1) else (bfw, bfs)
        let g2 := getSpeed o (mid + 1) g1.2.1 g1.2.2
        let b2 := if b1.2 < g2.1 then (mid + 1, g2.1) else b1
        if g1.1 < g2.1 then bisectLoop o fuel (mid + 2) high g2.2.1 g2.2.2 b2.1 b2.2
        else bisectLoop o fuel low (mid - 1) g2.2.1 g2.2.2 b2.1 b2.2
    else (bfw, bfs, st)

/-- Stable insertion into a list sorted by worker count (equal keys keep
their relative order). -/
def insertSorted (a : Nat × ℚ) : List (Nat × ℚ) → List (Nat × ℚ)
  | [] => [a]
  | b :: l => if b.1 ≤ a.1 then b :: insertSorted a l else a :: b :: l

/-- Python's stable `sorted(history, key=workers)`. -/
def sortByWorkers (l : List (Nat × ℚ)) : List (Nat × ℚ) :=
  l.foldl (fun acc a => insertSorted a acc) []

/-- `_run_fine_tuning_bisection`: build the measurement cache from the
history (later entries override earlier ones, as in the dict
comprehension), locate the coarse best in the sorted history, take the
previous coarse step (or 1) and the next coarse step as bounds — on
`StopIteration` or `IndexError` keep the coarse result — and run the
binary search. -/
def fineTuningBisection (o : Nat → ℚ) (st : TuneState) (bw : Nat) (bs : ℚ) :
    Nat × ℚ × TuneState :=
  let tested : Nat → Option ℚ := fun w => (st.history.reverse.find? (fun h => h.1 = w)).map (·.2)
  let sorted := sortByWorkers st.history
  match sorted.findIdx? (fun h => h.1 = bw) with
  | none => (bw, bs, st)
  | some idx =>
    match sorted[idx + 1]? with
    | none => (bw, bs, st)
    | some hi =>
      let lowB := if idx = 0 then 1 else (sorted.getD (idx - 1) (1, 0)).1
      bisectLoop o (hi.1 + 2) lowB hi.1 tested st bw bs

/-- `WorkerTuner.auto_tune` as a function of the measurement oracle: one
warm-up trial, the coarse sweep started at `best_workers = 1`,
`best_items_per_min = 0`, then the bisection phase; the first component
is the returned worker count. -/
def autoTuneFull (o : Nat → ℚ) : Nat × ℚ × TuneState :=
  let st1 := (runChunk o 1 ⟨0, [], []⟩).2
  let r := coarseSweep o workerCandidates st1 1 0
  fineTuningBisection o r.2.2 r.1 r.2.1

/-- The worker count `auto_tune` returns. -/
def autoTune (o : Nat → ℚ) : Nat := (autoTuneFull o).1

/-- Every measurement `(workers, items/min)` taken during `auto_tune`,
in call order (warm-up, coarse trials, plateau re-checks, bisection). -/
def autoTuneTrace (o : Nat → ℚ) : List (Nat × ℚ) := (autoTuneFull o).2.2.trace

/-- The property C5 claims of `auto_tune`: the returned worker count is
one whose measured throughput is maximal among all measurements taken. -/
def returnsMaxThroughput (o : Nat → ℚ) : Prop :=
  ∃ p ∈ autoTuneTrace o, p.1 = autoTune o ∧ ∀ q ∈ autoTuneTrace o, q.2 ≤ p.2

/-- A measurement oracle refuting C5: warm-up 0; 1 worker → 1000 items
per minute; 2 workers → 995 (within the 1% margin, so 2 displaces 1 as
`best_workers` while `best_items_per_min` stays 1000); 4 workers → 100
(plateau); re-check of 2 workers → 990 (confirms the plateau); bisection
measures 3 workers → 100 and nothing exceeds the carried 1000. -/
def cexOracle : Nat → ℚ := fun n =>
  match n with
  | 0 => 0
  | 1 => 1000
  | 2 => 995
  | 3 => 100
  | 4 => 990
  | _ => 100

lemma coarseSweep_cons_accept (o : Nat → ℚ) (w : Nat) (ws : List Nat) (st : TuneState)
    (bw : Nat) (bs : ℚ) (h : bs * TUNE_IMPROVEMENT_THRESHOLD < o st.n) :
    coarseSweep o (w :: ws) st bw bs
      = coarseSweep o ws ⟨st.n + 1, st.trace ++ [(w, o st.n)], st.history ++ [(w, o st.n)]⟩
          w (maxQ bs (o st.n)) := by
  simp only [coarseSweep, runChunk]
  rw [if_pos h]

lemma coarseSweep_cons_plateau_stop (o : Nat → ℚ) (w : Nat) (ws : List Nat) (st : TuneState)
    (bw : Nat) (bs : ℚ)
    (h1 : ¬ bs * TUNE_IMPROVEMENT_THRESHOLD < o st.n)
    (h2 : bs * (TUNE_IMPROVEMENT_THRESHOLD * TUNE_IMPROVEMENT_THRESHOLD) ≤ o (st.n + 1)) :
    coarseSweep o (w :: ws) st bw bs
      = (bw, bs, ⟨st.n + 2, st.trace ++ [(w, o st.n)] ++ [(bw, o (st.n + 1))],
          st.history ++ [(w, o st.n)]⟩) := by
  simp only [coarseSweep, runChunk]
  rw [if_neg h1, if_pos h2]

lemma bestPair_step {bfw bw1 f1 : Nat} {bfs bs1 f2 : ℚ}
    (h1 : bfs ≤ bs1 ∧ (bw1 = bfw ∨ bfs < bs1))
    (h2 : bs1 ≤ f2 ∧ (f1 = bw1 ∨ bs1 < f2)) :
    bfs ≤ f2 ∧ (f1 = bfw ∨ bfs < f2) := by
  obtain ⟨h1a, h1b⟩ := h1
  obtain ⟨h2a, h2b⟩ := h2
  refine ⟨le_trans h1a h2a, ?_⟩
  rcases h2b with h | h
  · rcases h1b with h' | h'
    · exact Or.inl (h.trans h')
    · exact Or.inr (lt_of_lt_of_le h' h2a)
  · exact Or.inr (lt_of_le_of_lt h1a h)

/-- The bisection loop never lowers the tracked best speed, and moves the
returned worker count away from the incoming best only on a strict
improvement of the tracked speed. -/
lemma bisectLoop_best (o : Nat → ℚ) :
    ∀ (fuel low high : Nat) (tested : Nat → Option ℚ) (st : TuneState) (bfw : Nat) (bfs : ℚ),
      bfs ≤ (bisectLoop o fuel low high tested st bfw bfs).2.1
      ∧ ((bisectLoop o fuel low high tested st bfw bfs).1 = bfw
          ∨ bfs < (bisectLoop o fuel low high tested st bfw bfs).2.1) := by
  intro fuel
  induction fuel with
  | zero =>
    intro low high tested st bfw bfs
    exact ⟨le_refl _, Or.inl rfl⟩
  | succ fuel ih =>
    intro low high tested st bfw bfs
    simp only [bisectLoop]
    by_cases hlh : low ≤ high
    · rw [if_pos hlh]
      by_cases hmid : (low + high) / 2 = 0
      · rw [if_pos hmid]
        exact ⟨le_refl _, Or.inl rfl⟩
      · rw [if_neg hmid]
        set mid := (low + high) / 2 with hmids
        set g1 := getSpeed o mid tested st with hg1
        set b1 := if bfs < g1.1 then (mid, g1.1) else (bfw, bfs) with hb1
        set g2 := getSpeed o (mid + 1) g1.2.1 g1.2.2 with hg2
        set b2 := if b1.2 < g2.1 then (mid + 1, g2.1) else b1 with hb2
        have hstep1 : bfs ≤ b1.2 ∧ (b1.1 = bfw ∨ bfs < b1.2) := by
          rw [hb1]
          split
          · rename_i h
            exact ⟨le_of_lt h, Or.inr h⟩
          · exact ⟨le_refl _, Or.inl rfl⟩
        have hstep2 : b1.2 ≤ b2.2 ∧ (b2.1 = b1.1 ∨ b1.2 < b2.2) := by
          rw [hb2]
          split
          · rename_i h
            exact ⟨le_of_lt h, Or.inr h⟩
          · exact ⟨le_refl _, Or.inl rfl⟩
        have hcomb := bestPair_step hstep1 hstep2
        split
        · exact bestPair_step hcomb (ih _ _ _ _ _ _)
        · exact bestPair_step hcomb (ih _ _ _ _ _ _)
    · rw [if_neg hlh]
      exact ⟨le_refl _, Or.inl rfl⟩

lemma fineTuningBisection_stop_idx (o : Nat → ℚ) (st : TuneState) (bw : Nat) (bs : ℚ)
    (hidx : (sortByWorkers st.history).findIdx? (fun p => p.1 = bw) = none) :
    fineTuningBisection o st bw bs = (bw, bs, st) := by
  simp only [fineTuningBisection, hidx]

lemma fineTuningBisection_stop_hi (o : Nat → ℚ) (st : TuneState) (bw : Nat) (bs : ℚ)
    (idx : Nat)
    (hidx : (sortByWorkers st.history).findIdx? (fun p => p.1 = bw) = some idx)
    (hhi : (sortByWorkers st.history)[idx + 1]? = none) :
    fineTuningBisection o st bw bs = (bw, bs, st) := by
  simp only [fineTuningBisection, hidx, hhi]

lemma fineTuningBisection_go (o : Nat → ℚ) (st : TuneState) (bw : Nat) (bs : ℚ)
    (idx : Nat) (hi : Nat × ℚ)
    (hidx : (sortByWorkers st.history).findIdx? (fun p => p.1 = bw) = some idx)
    (hhi : (sortByWorkers st.history)[idx + 1]? = some hi) :
    fineTuningBisection o st bw bs
      = bisectLoop o (hi.1 + 2)
          (if idx = 0 then 1 else ((sortByWorkers st.history).getD (idx - 1) (1, 0)).1)
          hi.1
          (fun w => (st.history.reverse.find? (fun h => h.1 = w)).map (·.2))
          st bw bs := by
  simp only [fineTuningBisection, hidx, hhi]

/-- `_run_fine_tuning_bisection` as a whole has the same property,
including the fallback branches that keep the coarse result. -/
lemma fineTuning_best (o : Nat → ℚ) (st : TuneState) (bw : Nat) (bs : ℚ) :
    bs ≤ (fineTuningBisection o st bw bs).2.1
    ∧ ((fineTuningBisection o st bw bs).1 = bw
        ∨ bs < (fineTuningBisection o st bw bs).2.1) := by
  cases hidx : (sortByWorkers st.history).findIdx? (fun p => p.1 = bw) with
  | none =>
    rw [fineTuningBisection_stop_idx o st bw bs hidx]
    exact ⟨le_refl _, Or.inl rfl⟩
  | some idx =>
    cases hhi : (sortByWorkers st.history)[idx + 1]? with
    | none =>
      rw [fineTuningBisection_stop_hi o st bw bs idx hidx hhi]
      exact ⟨le_refl _, Or.inl rfl⟩
    | some hi =>
      rw [fineTuningBisection_go o st bw bs idx hi hidx hhi]
      exact bisectLoop_best o _ _ _ _ _ _ _

/-- C5 counterexample: under the measurement oracle `cexOracle`,
`auto_tune` returns 2 workers although worker count 1 measured 1000
items/min — strictly above every measurement of worker count 2 (995 and
990) — so the returned count is not one with maximal measured
throughput. -/
theorem claim_C5_counterexample :
    autoTune cexOracle = 2
    ∧ autoTuneTrace cexOracle
        = [(1, 0), (1, 1000), (2, 995), (4, 100), (2, 990), (3, 100)]
    ∧ ¬ returnsMaxThroughput cexOracle := by
  have hcoarse : coarseSweep cexOracle workerCandidates ⟨1, [(1, 0)], []⟩ 1 0
      = (2, 1000, ⟨5, [(1, 0), (1, 1000), (2, 995), (4, 100), (2, 990)],
          [(1, 1000), (2, 995), (4, 100)]⟩) := by
    rw [show workerCandidates
        = 1 :: [2, 4, 8, 12, 16, 24, 32, 48, 64, 96, 128, 256, 512] from rfl]
    rw [coarseSweep_cons_accept cexOracle 1 _ _ 1 0
      (by norm_num [cexOracle, TUNE_IMPROVEMENT_THRESHOLD])]
    norm_num [cexOracle, maxQ]
    rw [coarseSweep_cons_accept cexOracle 2 _ _ 1 1000
      (by norm_num [cexOracle, TUNE_IMPROVEMENT_THRESHOLD])]
    norm_num [cexOracle, maxQ]
    rw [coarseSweep_cons_plateau_stop cexOracle 4 _ _ 2 1000
      (by norm_num [cexOracle, TUNE_IMPROVEMENT_THRESHOLD])
      (by norm_num [cexOracle, TUNE_IMPROVEMENT_THRESHOLD])]
    norm_num [cexOracle]
  have hfine : fineTuningBisection cexOracle
      ⟨5, [(1, 0), (1, 1000), (2, 995), (4, 100), (2, 990)],
        [(1, 1000), (2, 995), (4, 100)]⟩ 2 1000
      = (2, 1000, ⟨6, [(1, 0), (1, 1000), (2, 995), (4, 100), (2, 990), (3, 100)],
          [(1, 1000), (2, 995), (4, 100), (3, 100)]⟩) := by
    norm_num [fineTuningBisection, sortByWorkers, insertSorted, bisectLoop, getSpeed,
      runChunk, cexOracle]
  have hfull : autoTuneFull cexOracle
      = (2, 1000, ⟨6, [(1, 0), (1, 1000), (2, 995), (4, 100), (2, 990), (3, 100)],
          [(1, 1000), (2, 995), (4, 100), (3, 100)]⟩) := by
    have hwarm : (runChunk cexOracle 1 ⟨0, [], []⟩).2 = ⟨1, [(1, 0)], []⟩ := rfl
    simp only [autoTuneFull, hwarm, hcoarse]
    exact hfine
  refine ⟨by rw [autoTune, hfull], by rw [autoTuneTrace, hfull], ?_⟩
  rintro ⟨p, hp, hpw, hall⟩
  rw [autoTuneTrace, hfull] at hp hall
  rw [autoTune, hfull] at hpw
  have h1 : (1000 : ℚ) ≤ p.2 := hall (1, 1000) (by simp)
  simp only [List.mem_cons, List.not_mem_nil, or_false] at hp
  rcases hp with rfl | rfl | rfl | rfl | rfl | rfl <;> norm_num at hpw h1

/-- C5 amended: the bisection phase never lowers the carried best
throughput value and returns the coarse sweep's best-so-far worker count
unless some bisection measurement strictly exceeded that carried value
(`auto_tune` being exactly the bisection phase applied to the coarse
sweep's result after the warm-up). The carried value is a running
maximum possibly achieved by an earlier, different worker count — a
coarse candidate within the 1% margin becomes best-so-far without
carrying its own throughput — so the returned count need not have the
maximal measured throughput. -/
theorem claim_C5_best_so_far_semantics :
    (∀ (o : Nat → ℚ) (fuel low high : Nat) (tested : Nat → Option ℚ)
        (st : TuneState) (bfw : Nat) (bfs : ℚ),
      bfs ≤ (bisectLoop o fuel low high tested st bfw bfs).2.1
      ∧ ((bisectLoop o fuel low high tested st bfw bfs).1 = bfw
          ∨ bfs < (bisectLoop o fuel low high tested st bfw bfs).2.1))
    ∧ (∀ (o : Nat → ℚ) (st : TuneState) (bw : Nat) (bs : ℚ),
      bs ≤ (fineTuningBisection o st bw bs).2.1
      ∧ ((fineTuningBisection o st bw bs).1 = bw
          ∨ bs < (fineTuningBisection o st bw bs).2.1))
    ∧ (∀ o : Nat → ℚ,
      autoTuneFull o
        = fineTuningBisection o
            (coarseSweep o workerCandidates ((runChunk o 1 ⟨0, [], []⟩).2) 1 0).2.2
            (coarseSweep o workerCandidates ((runChunk o 1 ⟨0, [], []⟩).2) 1 0).1
            (coarseSweep o workerCandidates ((runChunk o 1 ⟨0, [], []⟩).2) 1 0).2.1) :=
  ⟨fun o fuel low high tested st bfw bfs => bisectLoop_best o fuel low high tested st bfw bfs,
    fun o st bw bs => fineTuning_best o st bw bs,
    fun _ => rfl⟩

end AiTranslator
